import Mathlib

/-!
Shallow embedding of the legal-rag-agent incremental indexing pipeline
(src/chunking.py and src/build_index.py) and proofs about it.

Modelling conventions:
* Python strings are `List Char`; `text[a:b]` is `pySlice`, `.strip()` is
  `pyStrip`, `str.rfind(sep, a, b)` is `rfind`.
* tiktoken token counting is external; it enters the code only through
  `avg_chars_per_token = len(block) / max(1, count_tokens(block))`.  We pass
  the counter as an explicit function argument and model
  `int(target_tokens * avg)` as exact natural floor division
  `target_tokens * len / max 1 tok` (Python float rounding differs by at most
  one character, which no claim here depends on).
* The `while` loop of the windower is not guaranteed to terminate (this is
  one of the checked claims), so it is embedded with explicit fuel and a
  Boolean flag recording whether the loop finished on its own.
-/

namespace LegalRag

/-- Python `\s` for the ASCII range used by this corpus pipeline. -/
def pyIsSpace (c : Char) : Bool :=
  c = ' ' || c = '\t' || c = '\n' || c = '\r' || c = '\x0b' || c = '\x0c'

/-- Python slice `t[a:b]` (with the usual clamping). -/
def pySlice (t : List Char) (a b : Nat) : List Char :=
  (t.take b).drop a

/-- Python `str.strip()`. -/
def pyStrip (t : List Char) : List Char :=
  ((t.dropWhile pyIsSpace).reverse.dropWhile pyIsSpace).reverse

/-- Scanning loop of `rfind`: walk the suffix of `t` that starts at index
`i`, remembering the last index at which `sep` occurs with
`index + len(sep) <= b`. -/
def rfindGo (sep : List Char) (b : Nat) :
    List Char → Nat → Option Nat → Option Nat
  | [], _, best => best
  | c :: rest, i, best =>
    if b ≤ i then best
    else
      let best' := if i + sep.length ≤ b && sep.isPrefixOf (c :: rest) then some i else best
      rfindGo sep b rest (i + 1) best'

/-- Python `t.rfind(sep, a, b)`: index of the last occurrence of `sep`
inside `t[a:b]`, as an `Option`. -/
def rfind (t sep : List Char) (a b : Nat) : Option Nat :=
  rfindGo sep b (t.drop a) a none

/-! ### Segmenter: `_find_article_sections` (src/chunking.py lines 10-30)

The header pattern is the Python regex `(?m)^(\s*მუხლი\s+(\d+)[\.|\s].*)$`
driven by `finditer`.  Because the characters of `მუხლი`, the digits and the
class character are never themselves consumed by a preceding greedy
whitespace/digit run, the regex backtracking is deterministic and the match
at a line start is: maximal `\s` run, the keyword, a non-empty maximal `\s`
run, a non-empty maximal digit run, one character in `{., |, \s}`, then the
rest of the line (`.*` does not cross a newline).  The scan keeps the
current suffix of the text alongside the absolute position, so a failing
position costs constant work. -/

/-- The Georgian article keyword `მუხლი`. -/
def articleKeyword : List Char := "მუხლი".toList

/-- The character class `[\.|\s]` after the article numeral. -/
def articleClassOk (c : Char) : Bool :=
  c = '.' || c = '|' || pyIsSpace c

/-- Try to match (the unanchored part of) the article-header regex against
the suffix `s` of the text; returns the match length and the captured digit
group. -/
def matchHeader (s : List Char) : Option (Nat × List Char) :=
  let w := s.takeWhile pyIsSpace
  let s1 := s.drop w.length
  if articleKeyword.isPrefixOf s1 then
    let s2 := s1.drop articleKeyword.length
    let w2 := s2.takeWhile pyIsSpace
    if w2.length == 0 then none
    else
      let s3 := s2.drop w2.length
      let dg := s3.takeWhile Char.isDigit
      if dg.length == 0 then none
      else
        match s3.drop dg.length with
        | [] => none
        | c :: s5 =>
          if articleClassOk c then
            let lineRest := s5.takeWhile (fun x => !(x == '\n'))
            some (w.length + articleKeyword.length + w2.length + dg.length + 1
                    + lineRest.length, dg)
          else none
  else none

/-- The `finditer` scan: left-to-right, non-overlapping; after a match of length
`L` the scan resumes right after it.  `i` is the absolute position, `rest`
the suffix of the text at `i`, and `atStart` records the `(?m)^` anchor
(start of text, or the previous character was a newline).  Fuel-driven;
`length + 1` fuel scans the whole text since every step advances by at
least one.  Each element is `(matchStart, matchEnd, digits)`. -/
def findArticleGo : Nat → Nat → List Char → Bool → List (Nat × Nat × List Char)
  | 0, _, _, _ => []
  | _ + 1, _, [], _ => []
  | fuel + 1, i, c :: rest, atStart =>
    if atStart then
      match matchHeader (c :: rest) with
      | some (len, digits) =>
        let len' := max 1 len
        let consumed := (c :: rest).take len'
        (i, i + len', digits) ::
          findArticleGo fuel (i + len') ((c :: rest).drop len')
            (consumed.getLastD 'x' == '\n')
      | none => findArticleGo fuel (i + 1) rest (c == '\n')
    else findArticleGo fuel (i + 1) rest (c == '\n')

/-- A structural block `(start, end, meta)` produced by the segmenter. -/
structure SectionRec where
  start : Nat
  stop : Nat
  section_title : List Char
  article : List Char
deriving DecidableEq

/-- Build the section list from the match list: each section runs from its
match start to the next match start (or end of text); the title is the
stripped matched line, the article tag the captured digits. -/
def sectionsFromMatches (t : List Char) : List (Nat × Nat × List Char) → List SectionRec
  | [] => []
  | (s, e, d) :: rest =>
    let stop := match rest with
      | [] => t.length
      | (s2, _, _) :: _ => s2
    ⟨s, stop, pyStrip (pySlice t s e), d⟩ :: sectionsFromMatches t rest

def fullTextTitle : List Char := "FULL_TEXT".toList

/-- The match list of `article_re.finditer(text)`. -/
def articleMatches (t : List Char) : List (Nat × Nat × List Char) :=
  findArticleGo (t.length + 1) 0 t true

/-- Model of `_find_article_sections` from src/chunking.py. -/
def _find_article_sections (t : List Char) : List SectionRec :=
  let ms := articleMatches t
  if ms.isEmpty then [⟨0, t.length, fullTextTitle, []⟩]
  else sectionsFromMatches t ms

end LegalRag

-- scratch sanity checks
example : LegalRag.pyStrip "  ab \n".toList = "ab".toList := by decide
example : LegalRag.rfind "ab. cd. e".toList ". ".toList 0 9 = some 6 := by decide
example : LegalRag.rfind "ab. cd. e".toList ". ".toList 0 7 = some 2 := by decide
example :
    LegalRag._find_article_sections "x\nმუხლი 1. a".toList =
      [⟨2, 12, "მუხლი 1. a".toList, "1".toList⟩] := by decide
example :
    LegalRag._find_article_sections "მუხლი 1. a\nმუხლი 2. b".toList =
      [⟨0, 11, "მუხლი 1. a".toList, "1".toList⟩,
       ⟨11, 21, "მუხლი 2. b".toList, "2".toList⟩] := by decide
example :
    LegalRag._find_article_sections "hello".toList =
      [⟨0, 5, "FULL_TEXT".toList, []⟩] := by decide

namespace LegalRag

/-! ### Windower: `iter_chunks` (src/chunking.py lines 39-85)

`while start < len(block)` loop; emitted chunks are `(start, end, content)`
relative to the block.  The loop is embedded with fuel; the returned Boolean
is `true` when the loop exited on its own (`start >= len(block)`, empty
trimmed content, or `end >= len(block)` after a yield) and `false` when the
fuel ran out with the loop still running. -/

/-- The boundary separators, in the priority order of the source. -/
def boundarySeps : List (List Char) :=
  ["\n\n".toList, "\n".toList, ". ".toList, "? ".toList, "! ".toList]

/-- The `boundary` computed by the `for sep in [...]` loop: the first
separator (in priority order) found by `rfind` inside `[s, e)`, mapped to
`index + len(sep)`. -/
def findBoundary (block : List Char) (s e : Nat) : Option Nat :=
  boundarySeps.findSome? (fun sep => (rfind block sep s e).map (fun i => i + sep.length))

/-- The emitted window end for cursor `s`: candidate `min len (s + atc)`
snapped back to `boundary` when one is found with `boundary > s`. -/
def windowEnd (block : List Char) (atc s : Nat) : Nat :=
  let e0 := min block.length (s + atc)
  match findBoundary block s e0 with
  | some b => if s < b then b else e0
  | none => e0

/-- One run of the windowing loop over a single block.
`atc` is `approx_target_chars`, `oc` is `overlap_chars` (both loop
constants in the source).  `max(0, end - overlap_chars)` is Nat
truncated subtraction. -/
def windowGo (block : List Char) (atc oc : Nat) :
    Nat → Nat → List (Nat × Nat × List Char) × Bool
  | 0, _ => ([], false)
  | fuel + 1, s =>
    if s < block.length then
      let e := windowEnd block atc s
      let content := pyStrip (pySlice block s e)
      if content.isEmpty then ([], true)
      else if block.length ≤ e then ([(s, e, content)], true)
      else
        let r := windowGo block atc oc fuel (e - oc)
        ((s, e, content) :: r.1, r.2)
    else ([], true)

/-- A chunk dict yielded by `iter_chunks` (absolute offsets). -/
structure ChunkRec where
  content : List Char
  start : Nat
  stop : Nat
  section_title : List Char
  article : List Char
deriving DecidableEq

/-- Window one structural block of `text`, producing absolute-offset chunk
records.  `countTokens` stands for the external tiktoken `_count_tokens`;
`avg_chars_per_token = len(block)/max(1, tok)` enters only through
`approx_target_chars` and `overlap_chars`, modelled with exact floor
division. -/
def windowBlock (countTokens : List Char → Nat) (fuel : Nat) (text : List Char)
    (target_tokens overlap_tokens : Nat) (sec : SectionRec) :
    List ChunkRec × Bool :=
  let block := pySlice text sec.start sec.stop
  let tok := max 1 (countTokens block)
  let atc := target_tokens * block.length / tok
  let oc := overlap_tokens * block.length / tok
  let r := windowGo block atc oc fuel 0
  (r.1.map (fun c =>
    ⟨c.2.2, sec.start + c.1, sec.start + c.2.1, sec.section_title, sec.article⟩), r.2)

/-- Model of `iter_chunks` from src/chunking.py: segment (or use one full-text
block), then window each block in order.  The Boolean is `true` iff every
block's windowing loop terminated within the fuel. -/
def iter_chunks (countTokens : List Char → Nat) (fuel : Nat) (text : List Char)
    (target_tokens overlap_tokens : Nat) (use_sections : Bool) :
    List ChunkRec × Bool :=
  let blocks := if use_sections then _find_article_sections text
                else [⟨0, text.length, fullTextTitle, []⟩]
  blocks.foldl (fun acc sec =>
    let r := windowBlock countTokens fuel text target_tokens overlap_tokens sec
    (acc.1 ++ r.1, acc.2 && r.2)) ([], true)

/-- Model of `split_into_chunks` from src/chunking.py (the collected chunk list). -/
def split_into_chunks (countTokens : List Char → Nat) (fuel : Nat) (text : List Char)
    (target_tokens overlap_tokens : Nat) (use_sections : Bool) : List ChunkRec :=
  (iter_chunks countTokens fuel text target_tokens overlap_tokens use_sections).1

end LegalRag

-- windower sanity checks (counter: one token per character)
example :
    LegalRag.iter_chunks List.length 10 "hello".toList 300 40 true =
      ([⟨"hello".toList, 0, 5, "FULL_TEXT".toList, []⟩], true) := by decide
-- overlap >= target: the cursor never advances (claim C2 part 1)
example :
    (LegalRag.windowGo (List.replicate 20 'a') 5 10 3 0).1.map
        (fun c => (c.1, c.2.1)) = [(0, 5), (0, 5), (0, 5)] := by decide
example : (LegalRag.windowGo (List.replicate 20 'a') 5 10 3 0).2 = false := by decide
-- boundary snap near cursor defeats progress even with target=300 > overlap=40
example :
    (LegalRag.iter_chunks List.length 2 ("ab. ".toList ++ List.replicate 40 'x')
        300 40 true).1.map (fun c => (c.start, c.stop)) = [(0, 4), (0, 4)] := by decide

namespace LegalRag

/-! ### Batcher: `_batch` (src/build_index.py lines 51-59) -/

/-- Loop of `_batch`: accumulate into `buf`, yield when `len(buf) >= size`,
yield the leftover buffer at the end if non-empty. -/
def batchGo {α : Type} (size : Nat) (buf : List α) : List α → List (List α)
  | [] => if buf.isEmpty then [] else [buf]
  | x :: xs =>
    let buf' := buf ++ [x]
    if size ≤ buf'.length then buf' :: batchGo size [] xs
    else batchGo size buf' xs

/-- Model of `_batch` from src/build_index.py. -/
def _batch {α : Type} (l : List α) (size : Nat) : List (List α) :=
  batchGo size [] l

/-! ### Embedding executor: `_embed_parallel` (src/build_index.py lines 62-77)

With `workers <= 1` the backend is called once on the whole batch.  With
`workers > 1` each text is submitted as a single-item call keyed by its
index, results are collected in completion order (`as_completed`) and each
is written into the preallocated `vectors` slot addressed by the original
index.  The completion order is modelled as an explicit list `completed` of
`(index, text)` pairs — any permutation of `texts.enum`; the backend
`embedFn` is a function, and `fut.result()[0]` is the head of the
single-item call's result. -/

def _embed_parallel {T V : Type} [Inhabited V] (embedFn : List T → List V)
    (texts : List T) (workers : Nat) (completed : List (Nat × T)) :
    List (Option V) :=
  if workers ≤ 1 then (embedFn texts).map some
  else
    completed.foldl
      (fun slots p => slots.set p.1 (some ((embedFn [p.2]).getD 0 default)))
      (List.replicate texts.length none)

end LegalRag

-- sanity: order preserved regardless of completion order
example :
    LegalRag._embed_parallel (fun ts => ts.map (fun t => t + 100)) [1, 2, 3] 4
        [(2, 3), (0, 1), (1, 2)] =
      [some 101, some 102, some 103] := by decide
example :
    LegalRag._batch [1, 2, 3, 4, 5] 2 = [[1, 2], [3, 4], [5]] := by decide

namespace LegalRag

/-! ### Orchestrator: `build_index` (src/build_index.py lines 96-206)

External collaborators (md5 hashing, tiktoken, the embedding backend, the
Pinecone index) are parameters of the model.  Globbing, logging and the
manifest file I/O are outside the model: the orchestrator receives the
sorted document list with read results, and returns the manifest as it is
persisted after the last completed document. -/

/-- An upsert record (id, vector, metadata) as assembled in the batch loop. -/
structure UpsertRecord (V : Type) where
  uid : List Char
  values : V
  m_doc_id : List Char
  m_source : List Char
  m_section_title : List Char
  m_article : List Char
  m_start : Nat
  m_stop : Nat
  m_text : List Char
deriving DecidableEq

/-- A document as enumerated by the glob: identifier (filename stem), path,
and the result of reading it (`none` = unreadable file: `open()` raises). -/
structure Document where
  id : List Char
  path : List Char
  read : Option (List Char)
deriving DecidableEq

/-- The manifest mapping doc_id -> content hash; insertion shadows like dict
assignment, lookup takes the most recent binding. -/
abbrev Manifest := List (List Char × List Char)

def mLookup (m : Manifest) (id : List Char) : Option (List Char) :=
  List.lookup id m

def mInsert (m : Manifest) (id h : List Char) : Manifest :=
  (id, h) :: m

/-- The external collaborators consumed by the orchestrator. -/
structure PipeEnv (V E : Type) where
  hash : List Char → List Char
  countTokens : List Char → Nat
  embed : List (List Char) → Except E (List V)
  upsert : List (UpsertRecord V) → Except E Unit

/-- The configuration surface consumed by the orchestrator. -/
structure PipeConfig where
  batch_size : Nat
  workers : Nat
  target_tokens : Nat
  overlap_tokens : Nat
  max_chunks : Option Nat
  fuel : Nat

/-- The `produced`/`max_chunks` bookkeeping of the batch loop: stop once the
cap is reached, truncating the final batch rather than dropping it. -/
def truncBatches (max_chunks : Option Nat) :
    Nat → List (List ChunkRec) → List (List ChunkRec)
  | _, [] => []
  | produced, b :: bs =>
    match max_chunks with
    | none => b :: truncBatches none (produced + b.length) bs
    | some mx =>
      if mx ≤ produced then []
      else
        let b' := if mx < produced + b.length then b.take (mx - produced) else b
        b' :: truncBatches (some mx) (produced + b'.length) bs

/-- The function `_embed_parallel` as invoked by the orchestrator: for `workers <= 1` one
backend call on the whole batch; for `workers > 1` per-text single-item
calls collected in index order (completion-order independence is proved
separately about `_embed_parallel`); the first backend failure propagates
(`raise` inside the `as_completed` loop). -/
def embedBatchE {V E : Type} [Inhabited V] (env : PipeEnv V E) (cfg : PipeConfig)
    (texts : List (List Char)) : Except E (List V) :=
  if cfg.workers ≤ 1 then env.embed texts
  else texts.mapM (fun t => (env.embed [t]).map (fun vs => vs.getD 0 default))

/-- Number of backend calls issued for one batch. -/
def embedCallCount (cfg : PipeConfig) (b : List ChunkRec) : Nat :=
  if cfg.workers ≤ 1 then 1 else b.length

/-- Decimal rendering of a Nat offset, for the deterministic chunk id. -/
def natStr (n : Nat) : List Char := (Nat.repr n).toList

/-- The payload list built for one batch (`zip(batch, vectors)`, id
`doc_id-start-end`, metadata from the chunk). -/
def mkPayload {V : Type} (docId path : List Char) (batch : List ChunkRec)
    (vecs : List V) : List (UpsertRecord V) :=
  (batch.zip vecs).map (fun cv =>
    ⟨docId ++ ['-'] ++ natStr cv.1.start ++ ['-'] ++ natStr cv.1.stop,
     cv.2, docId, path, cv.1.section_title, cv.1.article,
     cv.1.start, cv.1.stop, cv.1.content⟩)

/-- How a single document's indexing attempt can go wrong. -/
inductive DocErr (E : Type) where
  | embedFailed (e : E)
  | hang
  | chunkFuel
deriving DecidableEq

/-- Observable outcome of one document's pass through the pipeline. -/
structure DocOutcome (V E : Type) where
  skipped : Bool
  err : Option (DocErr E)
  upserts : List (List (UpsertRecord V))
  workerDied : Bool
  embedCalls : Nat
  committed : Bool
deriving DecidableEq

/-- Producer-side loop state: whether the upsert worker thread is still
alive, how many puts have piled up in the bounded queue since it died, the
successful upsert calls so far, and the backend embed calls so far. -/
structure WorkState (V : Type) where
  alive : Bool
  deadPuts : Nat
  upserts : List (List (UpsertRecord V))
  embedCalls : Nat

/-- The per-document embed/put loop together with the upsert worker
(src/build_index.py lines 80-93 and 174-201), sequentialised.  While the
worker is alive every `q.put` is matched by a `q.get` and an
`index.upsert` call.  If an upsert raises, the exception kills the daemon
worker thread silently (`_worker` has no handler); `q.task_done()` still
runs in its `finally`, so the queue is empty at that moment.  Subsequent
puts pile up in the bounded queue (`maxsize=2`); once it is full the
producer blocks forever, modelled as `DocErr.hang`.  The final sentinel
`q.put(None)` also occupies a slot when the worker is dead.  An embedding
failure propagates in the orchestrator thread. -/
def processBatches {V E : Type} [Inhabited V] (env : PipeEnv V E) (cfg : PipeConfig)
    (docId path : List Char) :
    WorkState V → List (List ChunkRec) → WorkState V × Option (DocErr E)
  | st, [] =>
    if st.alive then (st, none)
    else if st.deadPuts + 1 ≤ 2 then (st, none)
    else (st, some DocErr.hang)
  | st, b :: bs =>
    match embedBatchE env cfg (b.map ChunkRec.content) with
    | Except.error e =>
      ({ st with embedCalls := st.embedCalls + embedCallCount cfg b },
       some (DocErr.embedFailed e))
    | Except.ok vecs =>
      let st1 := { st with embedCalls := st.embedCalls + embedCallCount cfg b }
      let payload := mkPayload docId path b vecs
      if st1.alive then
        match env.upsert payload with
        | Except.ok _ =>
          processBatches env cfg docId path
            { st1 with upserts := st1.upserts ++ [payload] } bs
        | Except.error _ =>
          processBatches env cfg docId path
            { st1 with alive := false, deadPuts := 0 } bs
      else
        if st1.deadPuts < 2 then
          processBatches env cfg docId path
            { st1 with deadPuts := st1.deadPuts + 1 } bs
        else (st1, some DocErr.hang)

/-- Per-document body of the `for file_path in files` loop: hash and
manifest gate, chunk streaming, batching with the optional cap, the
embed/upsert loop, and — when the loop finishes and the queue drains — the
manifest commit.  Note that the commit happens whenever the producer loop
completed, even if the worker died on a failed upsert. -/
def processDoc {V E : Type} [Inhabited V] (env : PipeEnv V E) (cfg : PipeConfig)
    (m : Manifest) (doc : Document) (text : List Char) :
    DocOutcome V E × Manifest :=
  let h := env.hash text
  if mLookup m doc.id = some h then
    (⟨true, none, [], false, 0, false⟩, m)
  else
    let r := iter_chunks env.countTokens cfg.fuel text cfg.target_tokens
      cfg.overlap_tokens true
    if !r.2 then (⟨false, some DocErr.chunkFuel, [], false, 0, false⟩, m)
    else
      let batches := truncBatches cfg.max_chunks 0 (_batch r.1 cfg.batch_size)
      let pr := processBatches env cfg doc.id doc.path ⟨true, 0, [], 0⟩ batches
      match pr.2 with
      | some e => (⟨false, some e, pr.1.upserts, !pr.1.alive, pr.1.embedCalls, false⟩, m)
      | none =>
        (⟨false, none, pr.1.upserts, !pr.1.alive, pr.1.embedCalls, true⟩,
         mInsert m doc.id h)

/-- Aggregate backend-call statistics of a run. -/
structure RunStats where
  embedCalls : Nat
  upsertCalls : Nat
  skippedDocs : Nat
deriving DecidableEq

def zeroStats : RunStats := ⟨0, 0, 0⟩

/-- What stops a run: an unreadable file (`open()` raises, and `build_index`
has no handler), or a document whose indexing raised / blocked. -/
inductive RunErr (E : Type) where
  | readError
  | docFailed (e : DocErr E)
deriving DecidableEq

/-- Model of `build_index` over the sorted document list: returns the manifest as
persisted after the last completed document, the accumulated statistics,
and the first uncaught error, which aborts the run. -/
def build_index {V E : Type} [Inhabited V] (env : PipeEnv V E) (cfg : PipeConfig) :
    List Document → Manifest → RunStats → Manifest × RunStats × Option (RunErr E)
  | [], m, s => (m, s, none)
  | d :: ds, m, s =>
    match d.read with
    | none => (m, s, some RunErr.readError)
    | some text =>
      let r := processDoc env cfg m d text
      let o := r.1
      let s' : RunStats :=
        ⟨s.embedCalls + o.embedCalls, s.upsertCalls + o.upserts.length,
         s.skippedDocs + (if o.skipped then 1 else 0)⟩
      match o.err with
      | some e => (r.2, s', some (RunErr.docFailed e))
      | none => build_index env cfg ds r.2 s'

/-- A benign collaborator instantiation used for concrete evaluations:
identity hash, one token per character, a constant embedding backend, an
always-succeeding upsert. -/
def envOK : PipeEnv Int Unit :=
  ⟨fun t => t, List.length, fun ts => Except.ok (ts.map (fun _ => 0)), fun _ => Except.ok ()⟩

/-- Default-ish configuration: batch 32, 4 workers, 300/40 tokens, no cap. -/
def cfg0 : PipeConfig := ⟨32, 4, 300, 40, none, 100⟩

def doc0 : Document := ⟨"d".toList, "p".toList, some "hello".toList⟩

end LegalRag

-- orchestrator sanity checks
example :
    LegalRag.build_index LegalRag.envOK LegalRag.cfg0 [LegalRag.doc0] [] LegalRag.zeroStats =
      ([("d".toList, "hello".toList)], ⟨1, 1, 0⟩, none) := by decide
example :
    LegalRag.build_index LegalRag.envOK LegalRag.cfg0 [LegalRag.doc0]
        [("d".toList, "hello".toList)] LegalRag.zeroStats =
      ([("d".toList, "hello".toList)], ⟨0, 0, 1⟩, none) := by decide

namespace LegalRag

/-! ## Claim proofs -/

section BatchProofs

variable {α : Type}

lemma batchGo_join (size : Nat) (hs : 1 ≤ size) :
    ∀ (l : List α) (buf : List α), buf.length < size →
      (batchGo size buf l).flatten = buf ++ l := by
  intro l
  induction l with
  | nil =>
    intro buf _
    cases buf <;> simp [batchGo]
  | cons x xs ih =>
    intro buf hb
    simp only [batchGo]
    by_cases hy : size ≤ (buf ++ [x]).length
    · simp only [if_pos hy, List.flatten]
      rw [ih [] (by simpa using hs)]
      simp
    · simp only [if_neg hy]
      rw [ih (buf ++ [x]) (by simp at hy ⊢; omega)]
      simp

lemma batchGo_mem (size : Nat) (hs : 1 ≤ size) :
    ∀ (l : List α) (buf : List α), buf.length < size →
      ∀ b ∈ batchGo size buf l, b ≠ [] ∧ b.length ≤ size := by
  intro l
  induction l with
  | nil =>
    intro buf hb b hmem
    cases buf with
    | nil => simp [batchGo] at hmem
    | cons y ys =>
      simp [batchGo] at hmem
      subst hmem
      exact ⟨by simp, Nat.le_of_lt hb⟩
  | cons x xs ih =>
    intro buf hb b hmem
    simp only [batchGo] at hmem
    by_cases hy : size ≤ (buf ++ [x]).length
    · rw [if_pos hy] at hmem
      rcases List.mem_cons.mp hmem with h | h
      · subst h
        refine ⟨by simp, ?_⟩
        simp at hy ⊢
        omega
      · exact ih [] (by simpa using hs) b h
    · rw [if_neg hy] at hmem
      exact ih (buf ++ [x]) (by simp at hy ⊢; omega) b hmem

lemma batchGo_dropLast (size : Nat) (hs : 1 ≤ size) :
    ∀ (l : List α) (buf : List α), buf.length < size →
      ∀ b ∈ (batchGo size buf l).dropLast, b.length = size := by
  intro l
  induction l with
  | nil =>
    intro buf hb b hmem
    cases buf <;> simp [batchGo] at hmem
  | cons x xs ih =>
    intro buf hb b hmem
    simp only [batchGo] at hmem
    by_cases hy : size ≤ (buf ++ [x]).length
    · rw [if_pos hy] at hmem
      rcases hrest : batchGo size ([] : List α) xs with _ | ⟨r, rs⟩
      · rw [hrest] at hmem
        simp at hmem
      · rw [hrest, List.dropLast_cons₂] at hmem
        rcases List.mem_cons.mp hmem with h | h
        · subst h
          simp at hy ⊢
          omega
        · have := ih [] (by simpa using hs) b
          rw [hrest] at this
          exact this h
    · rw [if_neg hy] at hmem
      exact ih (buf ++ [x]) (by simp at hy ⊢; omega) b hmem

end BatchProofs

/-- C10: for every finite input sequence and batch size >= 1, `_batch`
partitions the sequence: concatenating the yielded batches reproduces the
input exactly, every batch is non-empty and at most `size` long, and every
batch except possibly the last has length exactly `size`. -/
theorem batch_partitions {α : Type} (l : List α) (size : Nat) (hs : 1 ≤ size) :
    (_batch l size).flatten = l
    ∧ (∀ b ∈ _batch l size, b ≠ [] ∧ b.length ≤ size)
    ∧ (∀ b ∈ (_batch l size).dropLast, b.length = size) := by
  refine ⟨?_, ?_, ?_⟩
  · simpa using batchGo_join size hs l [] (by simpa using hs)
  · exact batchGo_mem size hs l [] (by simpa using hs)
  · exact batchGo_dropLast size hs l [] (by simpa using hs)

/-- Witness for `batch_partitions` at a concrete input. -/
theorem batch_partitions_witness :
    (_batch [1, 2, 3, 4, 5] 2).flatten = [1, 2, 3, 4, 5]
    ∧ ([1, 2] ≠ [] ∧ ([1, 2] : List Nat).length ≤ 2)
    ∧ ([5] : List Nat).length ≤ 2 :=
  ⟨(batch_partitions [1, 2, 3, 4, 5] 2 (by decide)).1,
   (batch_partitions [1, 2, 3, 4, 5] 2 (by decide)).2.1 [1, 2] (by decide),
   ((batch_partitions [1, 2, 3, 4, 5] 2 (by decide)).2.1 [5] (by decide)).2⟩

end LegalRag

namespace LegalRag

section EmbedParallelProofs

variable {T V : Type} [Inhabited V]

lemma getLast?_cons_of_ne_nil {A : Type} (a : A) {l : List A} (h : l ≠ []) :
    (a :: l).getLast? = l.getLast? := by
  cases l with
  | nil => exact absurd rfl h
  | cons b bs => exact List.getLast?_cons_cons ..

/-- Each completed future writes into the slot addressed by its original
index; the final content of slot `j` is the last write with index `j`, or
the initial content if no future had index `j`. -/
lemma foldl_set_get? (g : T → V) :
    ∀ (ws : List (Nat × T)) (init : List (Option V)) (j : Nat),
      (ws.foldl (fun s p => s.set p.1 (some (g p.2))) init).get? j =
        match (ws.filter (fun p => p.1 == j)).getLast? with
        | some p => if j < init.length then some (some (g p.2)) else none
        | none => init.get? j := by
  intro ws
  induction ws with
  | nil => intro init j; simp
  | cons p ws ih =>
    intro init j
    simp only [List.foldl_cons, List.filter_cons]
    rw [ih]
    by_cases hp : p.1 = j
    · simp only [hp, beq_self_eq_true, if_true]
      cases hq : (ws.filter (fun q => q.1 == j)).getLast? with
      | some q =>
        have hne : ws.filter (fun q => q.1 == j) ≠ [] := by
          intro hnil; rw [hnil] at hq; simp at hq
        rw [getLast?_cons_of_ne_nil _ hne, hq]
        simp [List.length_set]
      | none =>
        have hnil : ws.filter (fun q => q.1 == j) = [] :=
          List.getLast?_eq_none_iff.mp hq
        rw [hnil]
        simp only [List.getLast?_singleton]
        by_cases hj : j < init.length
        · rw [if_pos hj]
          exact List.get?_set_eq_of_lt _ hj
        · rw [if_neg hj]
          refine List.get?_eq_none.mpr ?_
          simp only [List.length_set]
          omega
    · have hpb : (p.1 == j) = false := by simp [hp]
      simp only [hpb, if_false, Bool.false_eq_true]
      cases hq : (ws.filter (fun q => q.1 == j)).getLast? with
      | some q => simp [List.length_set]
      | none => exact List.get?_set_ne _ _ hp

/-- In `texts.enum`, exactly one pair carries index `j` (when `j` is in
range), namely `(j, texts[j])`. -/
lemma filter_enumFrom (j : Nat) :
    ∀ (l : List T) (k : Nat),
      ((List.enumFrom k l).filter (fun p => p.1 == j)) =
        (if k ≤ j then
          (match l.get? (j - k) with
           | some a => [(j, a)]
           | none => [])
        else []) := by
  intro l
  induction l with
  | nil =>
    intro k
    simp only [List.enumFrom, List.filter_nil]
    split <;> rfl
  | cons a l ih =>
    intro k
    simp only [List.enumFrom, List.filter_cons, ih (k + 1)]
    by_cases hk : k = j
    · subst hk
      simp only [beq_self_eq_true, if_true]
      rw [if_neg (by omega), if_pos (by omega)]
      simp
    · have hkb : (k == j) = false := by simp [hk]
      simp only [hkb, Bool.false_eq_true, if_false]
      by_cases hle : k ≤ j
      · have hlt : k + 1 ≤ j := by omega
        rw [if_pos hlt, if_pos hle]
        have harith : j - k = (j - (k + 1)) + 1 := by omega
        rw [harith]
        rfl
      · rw [if_neg (by omega), if_neg hle]

/-- Any completion order is a permutation of the indexed batch, so the
writes targeting slot `j` are exactly one: `(j, texts[j])`. -/
lemma filter_perm_enum_eq (texts : List T) (completed : List (Nat × T))
    (hperm : completed.Perm texts.enum) (j : Nat) :
    completed.filter (fun p => p.1 == j) =
      (match texts.get? j with
       | some a => [(j, a)]
       | none => []) := by
  have h1 := hperm.filter (fun p => p.1 == j)
  have h2 : texts.enum.filter (fun p => p.1 == j) =
      (match texts.get? j with
       | some a => [(j, a)]
       | none => []) := by
    have h3 := filter_enumFrom j texts 0
    simpa [List.enum] using h3
  rw [h2] at h1
  cases hg : texts.get? j with
  | some a => rw [hg] at h1; exact List.perm_singleton.mp h1
  | none => rw [hg] at h1; exact h1.eq_nil

end EmbedParallelProofs

/-- C4: with `concurrency > 1`, for any completion order of the worker
futures (any permutation of the indexed batch) and any pointwise embedding
backend, `_embed_parallel` fills the preallocated index-addressed slots so
that slot `i` holds the embedding of text `i`; its output equals the
sequential `concurrency <= 1` path on the same batch. -/
theorem embed_parallel_preserves_order {T V : Type} [Inhabited V]
    (embedFn : List T → List V) (f : T → V) (texts : List T) (workers : Nat)
    (completed : List (Nat × T))
    (hpt : ∀ ts, embedFn ts = ts.map f)
    (hperm : completed.Perm texts.enum)
    (hw : 1 < workers) :
    _embed_parallel embedFn texts workers completed =
      _embed_parallel embedFn texts 1 [] := by
  have hseq : _embed_parallel embedFn texts 1 [] = (texts.map f).map some := by
    simp [_embed_parallel, hpt]
  rw [hseq]
  unfold _embed_parallel
  rw [if_neg (by omega)]
  have hg : (fun (slots : List (Option V)) (p : Nat × T) =>
      slots.set p.1 (some ((embedFn [p.2]).getD 0 default))) =
      (fun (slots : List (Option V)) (p : Nat × T) =>
        slots.set p.1 (some (f p.2))) := by
    funext slots p
    rw [hpt]
    rfl
  rw [hg]
  apply List.ext_get?_iff.mpr
  intro j
  rw [foldl_set_get? f completed (List.replicate texts.length none) j,
    filter_perm_enum_eq texts completed hperm j]
  cases hg2 : texts.get? j with
  | some a =>
    have hj : j < texts.length := by
      by_contra hge
      rw [List.get?_eq_none.mpr (by omega)] at hg2
      exact Option.noConfusion hg2
    simp only [List.getLast?_singleton, List.length_replicate, if_pos hj]
    rw [List.get?_map, List.get?_map, hg2]
    rfl
  | none =>
    have hj : texts.length ≤ j := List.get?_eq_none.mp hg2
    simp only [List.getLast?_nil]
    rw [List.get?_map, List.get?_map, hg2]
    exact List.get?_eq_none.mpr (by simpa using hj)

/-- Witness for `embed_parallel_preserves_order`: three texts completed in
the order 2, 0, 1 still land in input order. -/
theorem embed_parallel_preserves_order_witness :
    _embed_parallel (fun ts => ts.map (fun t => t + 100)) [1, 2, 3] 4
        [(2, 3), (0, 1), (1, 2)] =
      _embed_parallel (fun ts => ts.map (fun t => t + 100)) [1, 2, 3] 1 [] :=
  embed_parallel_preserves_order (fun ts => ts.map (fun t => t + 100))
    (fun t => t + 100) [1, 2, 3] 4 [(2, 3), (0, 1), (1, 2)]
    (fun _ => rfl) (by decide) (by decide)

end LegalRag

namespace LegalRag

section WindowProofs

lemma pySlice_length (t : List Char) (a b : Nat) :
    (pySlice t a b).length = min b t.length - a := by
  simp [pySlice, List.length_drop, List.length_take]

lemma pyStrip_nil : pyStrip [] = [] := rfl

lemma pyStrip_ne_nil {l : List Char} (h : pyStrip l ≠ []) : l ≠ [] := by
  intro hl
  exact h (hl ▸ pyStrip_nil)

lemma pySlice_ne_nil {t : List Char} {a b : Nat} (h : pySlice t a b ≠ []) :
    a < b ∧ a < t.length := by
  have hlen : 0 < (pySlice t a b).length := List.length_pos.mpr h
  rw [pySlice_length] at hlen
  omega

/-- Composing Python slices: the inner window of a block is a window of the
whole text, provided the inner end stays within the block. -/
lemma pySlice_pySlice (t : List Char) (a b s e : Nat)
    (he : a + e ≤ min b t.length) :
    pySlice (pySlice t a b) s e = pySlice t (a + s) (a + e) := by
  unfold pySlice
  rw [List.take_drop, List.take_take]
  have hmin : min (a + e) b = a + e := by omega
  rw [hmin, List.drop_drop]

lemma rfindGo_le (sep : List Char) (b : Nat) :
    ∀ (rest : List Char) (i : Nat) (best : Option Nat),
      (∀ x, best = some x → x + sep.length ≤ b) →
      ∀ r, rfindGo sep b rest i best = some r → r + sep.length ≤ b := by
  intro rest
  induction rest with
  | nil =>
    intro i best hbest r hr
    exact hbest r hr
  | cons c cs ih =>
    intro i best hbest r hr
    simp only [rfindGo] at hr
    by_cases hbi : b ≤ i
    · rw [if_pos hbi] at hr
      exact hbest r hr
    · rw [if_neg hbi] at hr
      refine ih (i + 1) _ ?_ r hr
      intro x hx
      by_cases hcond : (decide (i + sep.length ≤ b) && sep.isPrefixOf (c :: cs)) = true
      · rw [if_pos hcond] at hx
        cases hx
        simp at hcond
        exact hcond.1
      · rw [if_neg hcond] at hx
        exact hbest x hx

lemma rfind_le {t sep : List Char} {a b i : Nat} (h : rfind t sep a b = some i) :
    i + sep.length ≤ b := by
  exact rfindGo_le sep b (t.drop a) a none (by intro x hx; cases hx) i h

lemma findBoundary_le {block : List Char} {s e b : Nat}
    (h : findBoundary block s e = some b) : b ≤ e := by
  unfold findBoundary at h
  generalize boundarySeps = seps at h
  induction seps with
  | nil => simp at h
  | cons sep seps ih =>
    simp only [List.findSome?_cons] at h
    cases hr : rfind block sep s e with
    | some i =>
      rw [hr] at h
      simp only [Option.map_some', Option.some.injEq] at h
      have := rfind_le hr
      omega
    | none =>
      rw [hr] at h
      simp only [Option.map_none'] at h
      exact ih h

lemma windowEnd_le (block : List Char) (atc s : Nat) :
    windowEnd block atc s ≤ block.length := by
  rcases hfb : findBoundary block s (min block.length (s + atc)) with _ | b
  · simp only [windowEnd, hfb]
    omega
  · have hb := findBoundary_le hfb
    simp only [windowEnd, hfb]
    split <;> omega

/-- Every chunk emitted by the window loop carries its cursor as start, an
end within the block, the stripped slice as content, and non-empty
content. -/
lemma windowGo_mem (block : List Char) (atc oc : Nat) :
    ∀ (fuel s : Nat), ∀ x ∈ (windowGo block atc oc fuel s).1,
      x.2.2 = pyStrip (pySlice block x.1 x.2.1) ∧ x.2.2 ≠ [] ∧
      x.1 < x.2.1 ∧ x.2.1 ≤ block.length := by
  intro fuel
  induction fuel with
  | zero => intro s x hx; simp [windowGo] at hx
  | succ fuel ih =>
    intro s x hx
    simp only [windowGo] at hx
    by_cases hs : s < block.length
    · rw [if_pos hs] at hx
      set e := windowEnd block atc s with he
      set content := pyStrip (pySlice block s e) with hc
      by_cases hemp : content.isEmpty
      · rw [if_pos hemp] at hx
        simp at hx
      · rw [if_neg hemp] at hx
        have hcne : content ≠ [] := by
          intro hnil
          rw [hnil] at hemp
          exact hemp rfl
        have hslice : pySlice block s e ≠ [] := pyStrip_ne_nil (hc ▸ hcne)
        have hse : s < e := by
          have h1 := pySlice_ne_nil hslice
          have h2 := windowEnd_le block atc s
          rw [← he] at h2
          have h3 : (pySlice block s e).length = min e block.length - s :=
            pySlice_length ..
          have h4 : 0 < (pySlice block s e).length := List.length_pos.mpr hslice
          omega
        by_cases hble : block.length ≤ e
        · rw [if_pos hble] at hx
          simp at hx
          subst hx
          exact ⟨rfl, hcne, hse, windowEnd_le block atc s⟩
        · rw [if_neg hble] at hx
          rcases List.mem_cons.mp hx with hhead | htail
          · subst hhead
            exact ⟨rfl, hcne, hse, windowEnd_le block atc s⟩
          · exact ih (e - oc) x htail
    · rw [if_neg hs] at hx
      simp at hx

/-- The first chunk of a window run starts at the initial cursor. -/
lemma windowGo_head_start (block : List Char) (atc oc : Nat) (fuel s : Nat) :
    ∀ x ∈ (windowGo block atc oc fuel s).1.head?, x.1 = s := by
  intro x hx
  cases fuel with
  | zero => simp [windowGo] at hx
  | succ fuel =>
    simp only [windowGo] at hx
    by_cases hs : s < block.length
    · rw [if_pos hs] at hx
      by_cases hemp : (pyStrip (pySlice block s (windowEnd block atc s))).isEmpty
      · rw [if_pos hemp] at hx
        simp at hx
      · rw [if_neg hemp] at hx
        by_cases hble : block.length ≤ windowEnd block atc s
        · rw [if_pos hble] at hx
          simp at hx
          subst hx
          rfl
        · rw [if_neg hble] at hx
          simp at hx
          subst hx
          rfl
    · rw [if_neg hs] at hx
      simp at hx

/-- Successive chunks of one window run: the next start is exactly
`max(0, end - overlap_chars)` of the previous chunk; the cursor strictly
advances iff the previous emitted end exceeds the previous start plus
`overlap_chars`. -/
lemma windowGo_chain (block : List Char) (atc oc : Nat) :
    ∀ (fuel s : Nat),
      List.Chain'
        (fun a b => b.1 = a.2.1 - oc ∧ b.1 ≤ a.2.1 ∧ (a.1 < b.1 ↔ a.1 + oc < a.2.1))
        (windowGo block atc oc fuel s).1 := by
  intro fuel
  induction fuel with
  | zero => intro s; simp [windowGo]
  | succ fuel ih =>
    intro s
    simp only [windowGo]
    by_cases hs : s < block.length
    · rw [if_pos hs]
      set e := windowEnd block atc s with he
      by_cases hemp : (pyStrip (pySlice block s e)).isEmpty
      · rw [if_pos hemp]
        simp
      · rw [if_neg hemp]
        by_cases hble : block.length ≤ e
        · rw [if_pos hble]
          simp
        · rw [if_neg hble]
          simp only
          refine List.chain'_cons'.mpr ⟨?_, ih (e - oc)⟩
          intro y hy
          have hstart := windowGo_head_start block atc oc fuel (e - oc) y hy
          refine ⟨hstart, ?_, ?_⟩
          · show y.1 ≤ e
            omega
          · show s < y.1 ↔ s + oc < e
            rw [hstart]
            omega
    · rw [if_neg hs]
      simp

end WindowProofs

end LegalRag

namespace LegalRag

/-- The invariant of a single emitted chunk, relative to the whole text. -/
def chunkOk (text : List Char) (c : ChunkRec) : Bool :=
  decide (c.start < c.stop) && decide (c.stop ≤ text.length) &&
  (c.content == pyStrip (pySlice text c.start c.stop)) && !(c.content.isEmpty)

section ChunkInvariantProofs

lemma windowBlock_mem (ct : List Char → Nat) (fuel : Nat) (text : List Char)
    (tt ot : Nat) (sec : SectionRec) :
    ∀ c ∈ (windowBlock ct fuel text tt ot sec).1, chunkOk text c = true := by
  intro c hc
  unfold windowBlock at hc
  simp only [List.mem_map] at hc
  obtain ⟨x, hx, hcx⟩ := hc
  have hprops := windowGo_mem (pySlice text sec.start sec.stop)
    (tt * (pySlice text sec.start sec.stop).length / max 1 (ct (pySlice text sec.start sec.stop)))
    (ot * (pySlice text sec.start sec.stop).length / max 1 (ct (pySlice text sec.start sec.stop)))
    fuel 0 x hx
  obtain ⟨hcontent, hne, hlt, hle⟩ := hprops
  have hblen : (pySlice text sec.start sec.stop).length =
      min sec.stop text.length - sec.start := pySlice_length ..
  have hbound : sec.start + x.2.1 ≤ min sec.stop text.length := by omega
  subst hcx
  simp only [chunkOk, Bool.and_eq_true, decide_eq_true_eq, beq_iff_eq,
    Bool.not_eq_true', List.isEmpty_eq_false_iff_exists_mem]
  refine ⟨⟨⟨by omega, by omega⟩, ?_⟩, ?_⟩
  · rw [← pySlice_pySlice text sec.start sec.stop x.1 x.2.1 hbound]
    exact hcontent
  · cases hcc : x.2.2 with
    | nil => exact absurd hcc hne
    | cons y ys => exact ⟨y, by simp [hcc]⟩

lemma iter_chunks_fst_flatten (ct : List Char → Nat) (fuel : Nat) (text : List Char)
    (tt ot : Nat) (us : Bool) :
    (iter_chunks ct fuel text tt ot us).1 =
      ((if us then _find_article_sections text
        else [⟨0, text.length, fullTextTitle, []⟩]).map
        (fun sec => (windowBlock ct fuel text tt ot sec).1)).flatten := by
  unfold iter_chunks
  generalize (if us then _find_article_sections text
    else [⟨0, text.length, fullTextTitle, []⟩]) = blocks
  suffices h : ∀ (bs : List SectionRec) (acc : List ChunkRec × Bool),
      (bs.foldl (fun acc sec =>
        (acc.1 ++ (windowBlock ct fuel text tt ot sec).1,
         acc.2 && (windowBlock ct fuel text tt ot sec).2)) acc).1 =
        acc.1 ++ (bs.map (fun sec => (windowBlock ct fuel text tt ot sec).1)).flatten by
    simpa using h blocks ([], true)
  intro bs
  induction bs with
  | nil => intro acc; simp
  | cons b bs ih =>
    intro acc
    simp only [List.foldl_cons, List.map_cons, List.flatten_cons, ih]
    simp [List.append_assoc]

end ChunkInvariantProofs

/-- C6: every chunk emitted by the windower satisfies
`0 <= start < stop <= len(text)`, its content is the trimmed slice
`text[start:stop]` and is non-empty; and a window whose trimmed content is
empty terminates windowing of that block without being emitted. -/
theorem windower_chunk_invariants :
    (∀ (ct : List Char → Nat) (fuel : Nat) (text : List Char) (tt ot : Nat) (us : Bool),
      ((iter_chunks ct fuel text tt ot us).1).all (chunkOk text) = true)
    ∧ (∀ (block : List Char) (atc oc fuel s : Nat),
        s < block.length →
        pyStrip (pySlice block s (windowEnd block atc s)) = [] →
        windowGo block atc oc (fuel + 1) s = ([], true)) := by
  constructor
  · intro ct fuel text tt ot us
    rw [List.all_eq_true]
    intro c hc
    rw [iter_chunks_fst_flatten] at hc
    simp only [List.mem_flatten, List.mem_map] at hc
    obtain ⟨l, ⟨sec, _, hl⟩, hcl⟩ := hc
    exact windowBlock_mem ct fuel text tt ot sec c (hl ▸ hcl)
  · intro block atc oc fuel s hs hempty
    simp [windowGo, hs, hempty]

/-- Witness for `windower_chunk_invariants` at concrete inputs. -/
theorem windower_chunk_invariants_witness :
    ((iter_chunks List.length 10 "hello".toList 300 40 true).1).all
        (chunkOk "hello".toList) = true
    ∧ windowGo "   ".toList 5 0 3 0 = ([], true) :=
  ⟨windower_chunk_invariants.1 List.length 10 "hello".toList 300 40 true,
   windower_chunk_invariants.2 "   ".toList 5 0 2 0 (by decide) (by decide)⟩

/-- C2 counterexample: the windower's cursor does not always strictly
advance when the emitted end is below block end, and windowing does not
always terminate.  Left: `overlap_tokens = 10 >= target_tokens = 5` (one
token per character): the first window is `[0,5)` with block length 20, and
the next cursor is `max(0, 5-10) = 0` again — the same window repeats and
the loop flag stays `false` (still running).  Right: even with the claim's
`target_tokens=300, overlap_tokens=40`, a `". "` boundary snap pulls the
emitted end back to 4, the cursor retreats to `max(0, 4-40) = 0`, and the
second chunk starts at 0 — not strictly after the first chunk's start. -/
theorem windower_progress_counterexample :
    ((iter_chunks List.length 2 (List.replicate 20 'a') 5 10 true).1.map
        (fun c => (c.start, c.stop)) = [(0, 5), (0, 5)]
      ∧ (iter_chunks List.length 2 (List.replicate 20 'a') 5 10 true).2 = false)
    ∧ ((iter_chunks List.length 2 ("ab. ".toList ++ List.replicate 40 'x') 300 40 true).1.map
        (fun c => (c.start, c.stop)) = [(0, 4), (0, 4)]
      ∧ (iter_chunks List.length 2 ("ab. ".toList ++ List.replicate 40 'x') 300 40 true).2 = false) := by
  decide

/-- C2 amended: in every windowing run, each chunk after the first starts at
exactly `max(0, previous end - overlap_chars)` — hence at or before the
previous chunk's end — and the cursor strictly advances over the previous
chunk's start if and only if the previous emitted end exceeds that start by
more than `overlap_chars`; no stronger progress (and hence no termination)
guarantee holds. -/
theorem windower_cursor_chain (block : List Char) (atc oc fuel s : Nat) :
    List.Chain'
      (fun a b => b.1 = a.2.1 - oc ∧ b.1 ≤ a.2.1 ∧ (a.1 < b.1 ↔ a.1 + oc < a.2.1))
      (windowGo block atc oc fuel s).1 :=
  windowGo_chain block atc oc fuel s

end LegalRag

namespace LegalRag

section SegmenterProofs

lemma drop_succ_of_drop_cons {t : List Char} {i : Nat} {c : Char} {rest : List Char}
    (h : t.drop i = c :: rest) : t.drop (i + 1) = rest := by
  have h1 : (t.drop i).drop 1 = t.drop (i + 1) := List.drop_drop ..
  rw [h] at h1
  simpa using h1.symm

/-- Every match reported by the scan lies at or after the scan position and
strictly inside the text. -/
lemma findArticleGo_bounds (t : List Char) :
    ∀ (fuel i : Nat) (b : Bool), ∀ m ∈ findArticleGo fuel i (t.drop i) b,
      i ≤ m.1 ∧ m.1 < t.length := by
  intro fuel
  induction fuel with
  | zero => intro i b m hm; simp [findArticleGo] at hm
  | succ fuel ih =>
    intro i b m hm
    cases hrest : t.drop i with
    | nil => rw [hrest] at hm; simp [findArticleGo] at hm
    | cons c rest =>
      have hi : i < t.length := by
        by_contra hge
        rw [List.drop_eq_nil_of_le (by omega)] at hrest
        exact List.noConfusion hrest
      rw [hrest] at hm
      simp only [findArticleGo] at hm
      by_cases hb : b = true
      · rw [if_pos hb] at hm
        split at hm
        next len digits heq =>
          rcases List.mem_cons.mp hm with hhead | htail
          · subst hhead
            exact ⟨Nat.le_refl i, hi⟩
          · have hdrop : (c :: rest).drop (max 1 len) = t.drop (i + max 1 len) := by
              rw [← hrest, List.drop_drop]
            rw [hdrop] at htail
            have := ih (i + max 1 len) _ m htail
            omega
        next heq =>
          rw [← drop_succ_of_drop_cons hrest] at hm
          have := ih (i + 1) _ m hm
          omega
      · rw [if_neg hb] at hm
        rw [← drop_succ_of_drop_cons hrest] at hm
        have := ih (i + 1) _ m hm
        omega

/-- Match positions are strictly increasing in scan order. -/
lemma findArticleGo_sorted (t : List Char) :
    ∀ (fuel i : Nat) (b : Bool),
      List.Chain' (fun a c => a.1 < c.1) (findArticleGo fuel i (t.drop i) b) := by
  intro fuel
  induction fuel with
  | zero => intro i b; simp [findArticleGo]
  | succ fuel ih =>
    intro i b
    cases hrest : t.drop i with
    | nil => simp [findArticleGo]
    | cons c rest =>
      simp only [findArticleGo]
      by_cases hb : b = true
      · rw [if_pos hb]
        split
        next len digits heq =>
          have hdrop : (c :: rest).drop (max 1 len) = t.drop (i + max 1 len) := by
            rw [← hrest, List.drop_drop]
          refine List.chain'_cons'.mpr ⟨?_, ?_⟩
          · intro y hy
            have hmem := List.mem_of_mem_head? hy
            rw [hdrop] at hmem
            have := (findArticleGo_bounds t fuel (i + max 1 len) _ y hmem).1
            show i < y.1
            omega
          · rw [hdrop]
            exact ih (i + max 1 len) _
        next heq =>
          rw [← drop_succ_of_drop_cons hrest]
          exact ih (i + 1) _
      · rw [if_neg hb]
        rw [← drop_succ_of_drop_cons hrest]
        exact ih (i + 1) _

lemma sections_head_start (t : List Char) (ms : List (Nat × Nat × List Char)) :
    (sectionsFromMatches t ms).head?.map SectionRec.start =
      ms.head?.map (fun m => m.1) := by
  cases ms with
  | nil => rfl
  | cons m rest => cases rest <;> rfl

lemma sections_last_stop (t : List Char) :
    ∀ ms : List (Nat × Nat × List Char), ms ≠ [] →
      (sectionsFromMatches t ms).getLast?.map SectionRec.stop = some t.length := by
  intro ms
  induction ms with
  | nil => intro h; exact absurd rfl h
  | cons m rest ih =>
    intro _
    cases hrest : rest with
    | nil =>
      obtain ⟨s, e, d⟩ := m
      rfl
    | cons m2 rest2 =>
      obtain ⟨s, e, d⟩ := m
      obtain ⟨s2, e2, d2⟩ := m2
      show ((⟨s, s2, pyStrip (pySlice t s e), d⟩ : SectionRec) ::
        sectionsFromMatches t ((s2, e2, d2) :: rest2)).getLast?.map SectionRec.stop =
          some t.length
      rw [getLast?_cons_of_ne_nil _ (by
        show (⟨s2, _, _, _⟩ : SectionRec) :: sectionsFromMatches t rest2 ≠ []
        exact List.cons_ne_nil _ _)]
      have := ih (by rw [hrest]; exact List.cons_ne_nil _ _)
      rw [hrest] at this
      exact this

lemma sections_chain (t : List Char) :
    ∀ ms : List (Nat × Nat × List Char),
      List.Chain' (fun a c => a.1 < c.1) ms →
      List.Chain' (fun a b => a.stop = b.start ∧ a.start < b.start)
        (sectionsFromMatches t ms) := by
  intro ms
  induction ms with
  | nil => intro _; simp [sectionsFromMatches]
  | cons m rest ih =>
    intro hchain
    cases hrest : rest with
    | nil =>
      obtain ⟨s, e, d⟩ := m
      simp [sectionsFromMatches]
    | cons m2 rest2 =>
      subst hrest
      obtain ⟨s, e, d⟩ := m
      obtain ⟨s2, e2, d2⟩ := m2
      have hlt : s < s2 := List.chain'_cons.mp hchain |>.1
      have htail := List.chain'_cons.mp hchain |>.2
      show List.Chain' _ ((⟨s, s2, pyStrip (pySlice t s e), d⟩ : SectionRec) ::
        sectionsFromMatches t ((s2, e2, d2) :: rest2))
      refine List.chain'_cons'.mpr ⟨?_, ih htail⟩
      intro y hy
      have hhead : (sectionsFromMatches t ((s2, e2, d2) :: rest2)).head?.map
          SectionRec.start = some s2 := by
        rw [sections_head_start]
        rfl
      have hy2 : y.start = s2 := by
        cases hh : (sectionsFromMatches t ((s2, e2, d2) :: rest2)).head? with
        | none => rw [hh] at hy; cases hy
        | some z =>
          rw [hh] at hy hhead
          cases hy
          simpa using hhead
      exact ⟨hy2.symm, by rw [hy2]; exact hlt⟩

lemma sections_mem_bounds (t : List Char) :
    ∀ ms : List (Nat × Nat × List Char),
      List.Chain' (fun a c => a.1 < c.1) ms →
      (∀ m ∈ ms, m.1 < t.length) →
      ∀ sec ∈ sectionsFromMatches t ms, sec.start ≤ sec.stop ∧ sec.stop ≤ t.length := by
  intro ms
  induction ms with
  | nil => intro _ _ sec hsec; simp [sectionsFromMatches] at hsec
  | cons m rest ih =>
    intro hchain hbnd sec hsec
    cases hrest : rest with
    | nil =>
      subst hrest
      obtain ⟨s, e, d⟩ := m
      simp only [sectionsFromMatches] at hsec
      simp at hsec
      subst hsec
      have := hbnd (s, e, d) (by simp)
      exact ⟨Nat.le_of_lt this, Nat.le_refl _⟩
    | cons m2 rest2 =>
      subst hrest
      obtain ⟨s, e, d⟩ := m
      obtain ⟨s2, e2, d2⟩ := m2
      have hlt : s < s2 := List.chain'_cons.mp hchain |>.1
      have htail := List.chain'_cons.mp hchain |>.2
      rcases List.mem_cons.mp hsec with hhead | htl
      · subst hhead
        have hs2 := hbnd (s2, e2, d2) (by simp)
        exact ⟨Nat.le_of_lt hlt, Nat.le_of_lt hs2⟩
      · exact ih htail (fun x hx => hbnd x (List.mem_cons_of_mem _ hx)) sec htl

end SegmenterProofs

end LegalRag

namespace LegalRag

/-- The coverage property claimed for the segmenter: non-empty block list,
first block starting at offset 0, contiguous ascending blocks, last block
ending at `len(text)` — i.e. an exact cover of `[0, len)`. -/
def segClaimCover (t : List Char) : Prop :=
  _find_article_sections t ≠ []
  ∧ (_find_article_sections t).head?.map SectionRec.start = some 0
  ∧ List.Chain' (fun a b => a.stop = b.start ∧ a.start < b.start)
      (_find_article_sections t)
  ∧ (_find_article_sections t).getLast?.map SectionRec.stop = some t.length

/-- C3 counterexample: on `"x\nმუხლი 1. a"` the single article header is
matched at offset 2, so the first (and only) block is `[2, 12)` and the
prefix `[0, 2)` before the first header is covered by no block — the
claimed exact cover of `[0, len)` fails. -/
theorem segmenter_cover_counterexample :
    ¬ segClaimCover "x\nმუხლი 1. a".toList := by
  intro h
  have h0 : (_find_article_sections "x\nმუხლი 1. a".toList).head?.map
      SectionRec.start = some 2 := by decide
  have h1 := h0.symm.trans h.2.1
  simp at h1

/-- C3 amended: the segmenter's blocks are ascending, non-overlapping and
contiguous, and the last block ends exactly at `len(text)`; but the first
block starts at the first header-match position (0 only when the text
starts with a header or contains none), so the cover is of
`[firstMatchStart, len)`, not necessarily `[0, len)`. -/
theorem segmenter_blocks (t : List Char) :
    _find_article_sections t ≠ []
    ∧ List.Chain' (fun a b => a.stop = b.start ∧ a.start < b.start)
        (_find_article_sections t)
    ∧ (_find_article_sections t).getLast?.map SectionRec.stop = some t.length
    ∧ (_find_article_sections t).head?.map SectionRec.start =
        some (((articleMatches t).map (fun m => m.1)).headD 0)
    ∧ (∀ sec ∈ _find_article_sections t,
        sec.start ≤ sec.stop ∧ sec.stop ≤ t.length) := by
  have hchain0 : List.Chain' (fun a c => a.1 < c.1) (articleMatches t) := by
    have h := findArticleGo_sorted t (t.length + 1) 0 true
    rw [List.drop_zero] at h
    exact h
  have hbnd0 : ∀ x ∈ articleMatches t, x.1 < t.length := by
    intro x hx
    have h := findArticleGo_bounds t (t.length + 1) 0 true x
      (by rw [List.drop_zero]; exact hx)
    exact h.2
  unfold _find_article_sections
  cases hms : articleMatches t with
  | nil =>
    simp only [List.isEmpty_nil, if_pos]
    refine ⟨by simp, by simp, by simp [List.getLast?_singleton], by simp, ?_⟩
    intro sec hsec
    simp at hsec
    subst hsec
    exact ⟨Nat.zero_le _, Nat.le_refl _⟩
  | cons m rest =>
    rw [hms] at hchain0 hbnd0
    obtain ⟨s, e, d⟩ := m
    simp only [List.isEmpty_cons, if_neg]
    refine ⟨?_, sections_chain t _ hchain0, sections_last_stop t _ (List.cons_ne_nil _ _),
      ?_, sections_mem_bounds t _ hchain0 hbnd0⟩
    · cases rest <;> exact List.cons_ne_nil _ _
    · show (sectionsFromMatches t ((s, e, d) :: rest)).head?.map SectionRec.start =
        some ((((s, e, d) :: rest).map (fun m => m.1)).headD 0)
      rw [sections_head_start]
      simp
  
/-- Witness for `segmenter_blocks` at a concrete input, including a
concrete member for the bounds conjunct. -/
theorem segmenter_blocks_witness :
    _find_article_sections "x\nმუხლი 1. a".toList ≠ []
    ∧ ((⟨2, 12, "მუხლი 1. a".toList, "1".toList⟩ : SectionRec).start ≤
        (⟨2, 12, "მუხლი 1. a".toList, "1".toList⟩ : SectionRec).stop
      ∧ (⟨2, 12, "მუხლი 1. a".toList, "1".toList⟩ : SectionRec).stop ≤
        ("x\nმუხლი 1. a".toList).length) :=
  ⟨(segmenter_blocks "x\nმუხლი 1. a".toList).1,
   (segmenter_blocks "x\nმუხლი 1. a".toList).2.2.2.2 _ (by decide)⟩

/-- The end-to-end two-article scenario: headers at character offsets 0 and
500, total length 900 (filler avoids any other boundary separator). -/
def textC8 : List Char :=
  "მუხლი 1.".toList ++ List.replicate 491 'a' ++ ['\n'] ++
  "მუხლი 2.".toList ++ List.replicate 392 'a'

end LegalRag

set_option maxRecDepth 100000 in
set_option maxHeartbeats 4000000 in
/-- C8: on the 900-character two-article document with headers at offsets 0
and 500, with `target_tokens = 600` (one token per character, so each
article fits in one window), the pipeline emits exactly two chunks tagged
with article numbers "1" and "2" and with the non-overlapping section
ranges `[0,500)` and `[500,900)`. -/
theorem two_article_pipeline :
    LegalRag.textC8.length = 900
    ∧ (LegalRag._find_article_sections LegalRag.textC8).map
        (fun s => (s.start, s.stop, s.article)) =
      [(0, 500, "1".toList), (500, 900, "2".toList)]
    ∧ (LegalRag.iter_chunks List.length 901 LegalRag.textC8 600 40 true).1.map
        (fun c => (c.start, c.stop, c.article)) =
      [(0, 500, "1".toList), (500, 900, "2".toList)]
    ∧ (LegalRag.iter_chunks List.length 901 LegalRag.textC8 600 40 true).2 = true := by
  refine ⟨by decide, by decide, by decide, by decide⟩

namespace LegalRag

/-- Collaborators whose `index.upsert` always raises (storage outage),
with identity hash, one token per character, and constant embeddings. -/
def envUpsertFail : PipeEnv Int Unit :=
  ⟨fun t => t, List.length, fun ts => Except.ok (ts.map (fun _ => 0)),
   fun _ => Except.error ()⟩

end LegalRag

/-- C1, failing input: a single new document `"hello"` producing one batch,
against a storage backend whose upsert always raises.  The worker thread
dies on the unhandled exception; `q.put(None)` still fits in the bounded
queue, `worker.join()` returns, and `build_index` commits the manifest
entry for the document although zero upserts succeeded — the run even
reports no error.  On the next run the document would be skipped as
unchanged while none of its vectors were written, contradicting the
claimed invariant that a failed upsert leaves the manifest entry
uncommitted. -/
theorem upsert_failure_still_commits :
    LegalRag.build_index LegalRag.envUpsertFail LegalRag.cfg0 [LegalRag.doc0] []
        LegalRag.zeroStats =
      ([("d".toList, "hello".toList)], ⟨1, 0, 0⟩, none)
    ∧ (LegalRag.processDoc LegalRag.envUpsertFail LegalRag.cfg0 [] LegalRag.doc0
        "hello".toList).1.workerDied = true
    ∧ (LegalRag.processDoc LegalRag.envUpsertFail LegalRag.cfg0 [] LegalRag.doc0
        "hello".toList).1.upserts = []
    ∧ (LegalRag.processDoc LegalRag.envUpsertFail LegalRag.cfg0 [] LegalRag.doc0
        "hello".toList).1.committed = true := by
  decide

/-- C9 counterexample: an unreadable file is not skipped with a warning —
`open()` raises, `build_index` has no handler, and the whole run aborts
with the read error before any later document is processed. -/
theorem read_error_counterexample :
    LegalRag.build_index LegalRag.envOK LegalRag.cfg0
        [⟨"d".toList, "p".toList, none⟩, LegalRag.doc0] [] LegalRag.zeroStats =
      ([], LegalRag.zeroStats, some LegalRag.RunErr.readError) := by
  decide

namespace LegalRag

/-- C9 amended: an unreadable file aborts the entire run with the read
error (no skip-and-continue, no indexing attempt, no commit for it or any
later document); an empty document is not skipped either — it is processed
normally, yields zero chunks, zero embedding and zero upsert calls, and its
manifest entry IS committed. -/
theorem input_error_behaviour {V E : Type} [Inhabited V] (env : PipeEnv V E)
    (cfg : PipeConfig) (id path : List Char) (rest : List Document)
    (m : Manifest) (s : RunStats) (doc : Document)
    (hfuel : 1 ≤ cfg.fuel)
    (hmiss : ¬ mLookup m doc.id = some (env.hash [])) :
    build_index env cfg (⟨id, path, none⟩ :: rest) m s = (m, s, some RunErr.readError)
    ∧ processDoc env cfg m doc [] =
        (⟨false, none, [], false, 0, true⟩, mInsert m doc.id (env.hash [])) := by
  constructor
  · rfl
  · obtain ⟨f, hf⟩ : ∃ f, cfg.fuel = f + 1 := ⟨cfg.fuel - 1, by omega⟩
    have hchunks : iter_chunks env.countTokens cfg.fuel [] cfg.target_tokens
        cfg.overlap_tokens true = ([], true) := by
      rw [hf]
      rfl
    simp only [processDoc, hchunks, if_neg hmiss]
    rfl

/-- Witness for `input_error_behaviour` at concrete inputs. -/
theorem input_error_behaviour_witness :
    build_index envOK cfg0 [⟨"d".toList, "p".toList, none⟩] [] zeroStats =
      ([], zeroStats, some RunErr.readError)
    ∧ processDoc envOK cfg0 [] doc0 [] =
        (⟨false, none, [], false, 0, true⟩, mInsert [] "d".toList (envOK.hash [])) :=
  input_error_behaviour envOK cfg0 "d".toList "p".toList [] [] zeroStats doc0
    (by decide) (by decide)

end LegalRag

namespace LegalRag

/-- Does the batch's embedding succeed under the environment? -/
def embedOkBatch {V E : Type} [Inhabited V] (env : PipeEnv V E) (cfg : PipeConfig)
    (b : List ChunkRec) : Bool :=
  (embedBatchE env cfg (b.map ChunkRec.content)).isOk

/-- The payload a batch would contribute when its embedding succeeds. -/
def payloadOf {V E : Type} [Inhabited V] (env : PipeEnv V E) (cfg : PipeConfig)
    (docId path : List Char) (b : List ChunkRec) : List (UpsertRecord V) :=
  match embedBatchE env cfg (b.map ChunkRec.content) with
  | Except.ok vecs => mkPayload docId path b vecs
  | Except.error _ => []

section EmbedFailureProofs

variable {V E : Type} [Inhabited V]

lemma processBatches_nil_alive (env : PipeEnv V E) (cfg : PipeConfig)
    (docId path : List Char) (st : WorkState V) (halive : st.alive = true) :
    processBatches env cfg docId path st [] = (st, none) := by
  simp [processBatches, halive]

lemma processBatches_cons_embed_err (env : PipeEnv V E) (cfg : PipeConfig)
    (docId path : List Char) (st : WorkState V) (b : List ChunkRec)
    (bs : List (List ChunkRec)) (e0 : E)
    (hemb : embedBatchE env cfg (b.map ChunkRec.content) = Except.error e0) :
    processBatches env cfg docId path st (b :: bs) =
      ({ st with embedCalls := st.embedCalls + embedCallCount cfg b },
       some (DocErr.embedFailed e0)) := by
  simp [processBatches, hemb]

lemma processBatches_cons_ok_ok (env : PipeEnv V E) (cfg : PipeConfig)
    (docId path : List Char) (st : WorkState V) (b : List ChunkRec)
    (bs : List (List ChunkRec)) (vecs : List V)
    (hemb : embedBatchE env cfg (b.map ChunkRec.content) = Except.ok vecs)
    (halive : st.alive = true)
    (hups : env.upsert (mkPayload docId path b vecs) = Except.ok ()) :
    processBatches env cfg docId path st (b :: bs) =
      processBatches env cfg docId path
        { st with upserts := st.upserts ++ [mkPayload docId path b vecs],
                  embedCalls := st.embedCalls + embedCallCount cfg b } bs := by
  simp [processBatches, hemb, halive, hups]

/-- When upserts succeed, an embedding failure stops the batch loop: the
successful upserts are exactly the payloads of the batches before the first
embedding failure, and the failing batch is not among them. -/
lemma processBatches_embed_fail (env : PipeEnv V E)
    (cfg : PipeConfig) (docId path : List Char)
    (hup : ∀ p, env.upsert p = Except.ok ()) :
    ∀ (batches : List (List ChunkRec)) (st : WorkState V), st.alive = true →
      ∀ e, (processBatches env cfg docId path st batches).2 =
          some (DocErr.embedFailed e) →
        (processBatches env cfg docId path st batches).1.upserts =
          st.upserts ++
            (batches.takeWhile (embedOkBatch env cfg)).map (payloadOf env cfg docId path)
        ∧ (batches.takeWhile (embedOkBatch env cfg)).length < batches.length := by
  intro batches
  induction batches with
  | nil =>
    intro st halive e herr
    rw [processBatches_nil_alive env cfg docId path st halive] at herr
    simp at herr
  | cons b bs ih =>
    intro st halive e herr
    cases hemb : embedBatchE env cfg (b.map ChunkRec.content) with
    | error e0 =>
      rw [processBatches_cons_embed_err env cfg docId path st b bs e0 hemb] at herr ⊢
      have hok : embedOkBatch env cfg b = false := by
        simp [embedOkBatch, hemb, Except.isOk, Except.toBool]
      rw [List.takeWhile_cons, hok]
      simp
    | ok vecs =>
      rw [processBatches_cons_ok_ok env cfg docId path st b bs vecs hemb halive
        (hup (mkPayload docId path b vecs))] at herr ⊢
      have hok : embedOkBatch env cfg b = true := by
        simp [embedOkBatch, hemb, Except.isOk, Except.toBool]
      have hrec := ih { st with
          upserts := st.upserts ++ [mkPayload docId path b vecs],
          embedCalls := st.embedCalls + embedCallCount cfg b }
        halive e herr
      rw [List.takeWhile_cons, hok]
      simp only [if_true]
      constructor
      · rw [hrec.1]
        simp only [List.map_cons]
        have hpay : payloadOf env cfg docId path b = mkPayload docId path b vecs := by
          simp [payloadOf, hemb]
        rw [hpay]
        simp [List.append_assoc]
      · have := hrec.2
        simp only [List.length_cons]
        omega

end EmbedFailureProofs

end LegalRag

namespace LegalRag

section ProcessDocLemmas

variable {V E : Type} [Inhabited V]

/-- The batch list a document's chunk stream feeds into the embed/upsert
loop. -/
def docBatches (env : PipeEnv V E) (cfg : PipeConfig) (text : List Char) :
    List (List ChunkRec) :=
  truncBatches cfg.max_chunks 0
    (_batch (iter_chunks env.countTokens cfg.fuel text cfg.target_tokens
      cfg.overlap_tokens true).1 cfg.batch_size)

lemma processDoc_skip (env : PipeEnv V E) (cfg : PipeConfig) (m : Manifest)
    (doc : Document) (text : List Char)
    (hs : mLookup m doc.id = some (env.hash text)) :
    processDoc env cfg m doc text = (⟨true, none, [], false, 0, false⟩, m) := by
  simp [processDoc, hs]

lemma processDoc_chunkfuel (env : PipeEnv V E) (cfg : PipeConfig) (m : Manifest)
    (doc : Document) (text : List Char)
    (hs : ¬ mLookup m doc.id = some (env.hash text))
    (hfin : (iter_chunks env.countTokens cfg.fuel text cfg.target_tokens
      cfg.overlap_tokens true).2 = false) :
    processDoc env cfg m doc text =
      (⟨false, some DocErr.chunkFuel, [], false, 0, false⟩, m) := by
  simp [processDoc, hs, hfin]

lemma processDoc_batches_err (env : PipeEnv V E) (cfg : PipeConfig) (m : Manifest)
    (doc : Document) (text : List Char) (e : DocErr E)
    (hs : ¬ mLookup m doc.id = some (env.hash text))
    (hfin : (iter_chunks env.countTokens cfg.fuel text cfg.target_tokens
      cfg.overlap_tokens true).2 = true)
    (hpr : (processBatches env cfg doc.id doc.path ⟨true, 0, [], 0⟩
      (docBatches env cfg text)).2 = some e) :
    processDoc env cfg m doc text =
      (⟨false, some e,
        (processBatches env cfg doc.id doc.path ⟨true, 0, [], 0⟩
          (docBatches env cfg text)).1.upserts,
        !(processBatches env cfg doc.id doc.path ⟨true, 0, [], 0⟩
          (docBatches env cfg text)).1.alive,
        (processBatches env cfg doc.id doc.path ⟨true, 0, [], 0⟩
          (docBatches env cfg text)).1.embedCalls, false⟩, m) := by
  simp only [docBatches] at hpr
  simp [processDoc, hs, hfin, hpr, docBatches]

lemma processDoc_batches_ok (env : PipeEnv V E) (cfg : PipeConfig) (m : Manifest)
    (doc : Document) (text : List Char)
    (hs : ¬ mLookup m doc.id = some (env.hash text))
    (hfin : (iter_chunks env.countTokens cfg.fuel text cfg.target_tokens
      cfg.overlap_tokens true).2 = true)
    (hpr : (processBatches env cfg doc.id doc.path ⟨true, 0, [], 0⟩
      (docBatches env cfg text)).2 = none) :
    processDoc env cfg m doc text =
      (⟨false, none,
        (processBatches env cfg doc.id doc.path ⟨true, 0, [], 0⟩
          (docBatches env cfg text)).1.upserts,
        !(processBatches env cfg doc.id doc.path ⟨true, 0, [], 0⟩
          (docBatches env cfg text)).1.alive,
        (processBatches env cfg doc.id doc.path ⟨true, 0, [], 0⟩
          (docBatches env cfg text)).1.embedCalls, true⟩,
       mInsert m doc.id (env.hash text)) := by
  simp only [docBatches] at hpr
  simp [processDoc, hs, hfin, hpr, docBatches]

lemma build_index_cons_read (env : PipeEnv V E) (cfg : PipeConfig)
    (d : Document) (ds : List Document) (m : Manifest) (s : RunStats)
    (text : List Char) (hread : d.read = some text) :
    build_index env cfg (d :: ds) m s =
      (match (processDoc env cfg m d text).1.err with
       | some e =>
         ((processDoc env cfg m d text).2,
          ⟨s.embedCalls + (processDoc env cfg m d text).1.embedCalls,
           s.upsertCalls + (processDoc env cfg m d text).1.upserts.length,
           s.skippedDocs + (if (processDoc env cfg m d text).1.skipped then 1 else 0)⟩,
          some (RunErr.docFailed e))
       | none =>
         build_index env cfg ds (processDoc env cfg m d text).2
           ⟨s.embedCalls + (processDoc env cfg m d text).1.embedCalls,
            s.upsertCalls + (processDoc env cfg m d text).1.upserts.length,
            s.skippedDocs + (if (processDoc env cfg m d text).1.skipped then 1 else 0)⟩) := by
  simp [build_index, hread]

end ProcessDocLemmas

end LegalRag

namespace LegalRag

/-- C5: when an embedding call fails (and upserts themselves succeed), the
document's batch loop is aborted fail-fast: the error propagates as fatal
for the document (and, with no per-document handler, for the run), the
failing batch contributes no upsert — the upserted batches are exactly
those whose embedding succeeded before the failure — and the manifest entry
for the document is not updated, leaving it eligible for a full retry. -/
theorem embed_failure_aborts_doc {V E : Type} [Inhabited V] (env : PipeEnv V E)
    (cfg : PipeConfig) (m : Manifest) (doc : Document) (text : List Char)
    (rest : List Document) (s : RunStats) (e : E)
    (hup : ∀ p, env.upsert p = Except.ok ())
    (hread : doc.read = some text)
    (herr : (processDoc env cfg m doc text).1.err = some (DocErr.embedFailed e)) :
    (processDoc env cfg m doc text).1.committed = false
    ∧ (processDoc env cfg m doc text).2 = m
    ∧ (processDoc env cfg m doc text).1.upserts =
        ((docBatches env cfg text).takeWhile (embedOkBatch env cfg)).map
          (payloadOf env cfg doc.id doc.path)
    ∧ ((docBatches env cfg text).takeWhile (embedOkBatch env cfg)).length <
        (docBatches env cfg text).length
    ∧ ∃ s2, build_index env cfg (doc :: rest) m s =
        (m, s2, some (RunErr.docFailed (DocErr.embedFailed e))) := by
  by_cases hs : mLookup m doc.id = some (env.hash text)
  · rw [processDoc_skip env cfg m doc text hs] at herr
    simp at herr
  · cases hfin : (iter_chunks env.countTokens cfg.fuel text cfg.target_tokens
      cfg.overlap_tokens true).2 with
    | false =>
      rw [processDoc_chunkfuel env cfg m doc text hs hfin] at herr
      simp at herr
    | true =>
      cases hpr : (processBatches env cfg doc.id doc.path ⟨true, 0, [], 0⟩
        (docBatches env cfg text)).2 with
      | none =>
        rw [processDoc_batches_ok env cfg m doc text hs hfin hpr] at herr
        simp at herr
      | some e2 =>
        have hdoc := processDoc_batches_err env cfg m doc text e2 hs hfin hpr
        have he2 : e2 = DocErr.embedFailed e := by
          have h3 : (processDoc env cfg m doc text).1.err = some e2 := by rw [hdoc]
          rw [herr] at h3
          injection h3 with h4
          exact h4.symm
        subst he2
        have hfail := processBatches_embed_fail env cfg doc.id doc.path hup
          (docBatches env cfg text) ⟨true, 0, [], 0⟩ rfl e hpr
        refine ⟨by rw [hdoc], by rw [hdoc], ?_, hfail.2, ?_⟩
        · rw [hdoc]
          have h1 := hfail.1
          simpa using h1
        · refine ⟨⟨s.embedCalls + (processDoc env cfg m doc text).1.embedCalls,
            s.upsertCalls + (processDoc env cfg m doc text).1.upserts.length,
            s.skippedDocs +
              (if (processDoc env cfg m doc text).1.skipped then 1 else 0)⟩, ?_⟩
          rw [build_index_cons_read env cfg doc rest m s text hread]
          simp only [herr]
          rw [hdoc]

end LegalRag

namespace LegalRag

/-- Collaborators whose embedding backend always fails. -/
def envEmbedFail : PipeEnv Int Unit :=
  ⟨fun t => t, List.length, fun _ => Except.error (), fun _ => Except.ok ()⟩

/-- Witness for `embed_failure_aborts_doc` at a concrete input. -/
theorem embed_failure_aborts_doc_witness :
    (processDoc envEmbedFail cfg0 [] doc0 "hello".toList).1.committed = false
    ∧ (processDoc envEmbedFail cfg0 [] doc0 "hello".toList).2 = [] :=
  ⟨(embed_failure_aborts_doc envEmbedFail cfg0 [] doc0 "hello".toList [] zeroStats ()
      (fun _ => rfl) rfl (by decide)).1,
   (embed_failure_aborts_doc envEmbedFail cfg0 [] doc0 "hello".toList [] zeroStats ()
      (fun _ => rfl) rfl (by decide)).2.1⟩

section IdempotenceProofs

variable {V E : Type} [Inhabited V]

lemma mLookup_mInsert_self (m : Manifest) (id h : List Char) :
    mLookup (mInsert m id h) id = some h := by
  simp [mLookup, mInsert, List.lookup]

lemma mLookup_mInsert_ne (m : Manifest) (id h x : List Char) (hx : ¬ x = id) :
    mLookup (mInsert m id h) x = mLookup m x := by
  have hb : (x == id) = false := by
    simp [hx]
  simp [mLookup, mInsert, List.lookup, hb]

lemma processDoc_manifest (env : PipeEnv V E) (cfg : PipeConfig) (m : Manifest)
    (doc : Document) (text : List Char) :
    (processDoc env cfg m doc text).2 = m ∨
    (processDoc env cfg m doc text).2 = mInsert m doc.id (env.hash text) := by
  by_cases hs : mLookup m doc.id = some (env.hash text)
  · rw [processDoc_skip env cfg m doc text hs]
    exact Or.inl rfl
  · cases hfin : (iter_chunks env.countTokens cfg.fuel text cfg.target_tokens
      cfg.overlap_tokens true).2 with
    | false =>
      rw [processDoc_chunkfuel env cfg m doc text hs hfin]
      exact Or.inl rfl
    | true =>
      cases hpr : (processBatches env cfg doc.id doc.path ⟨true, 0, [], 0⟩
        (docBatches env cfg text)).2 with
      | some e2 =>
        rw [processDoc_batches_err env cfg m doc text e2 hs hfin hpr]
        exact Or.inl rfl
      | none =>
        rw [processDoc_batches_ok env cfg m doc text hs hfin hpr]
        exact Or.inr rfl

lemma processDoc_no_err_lookup (env : PipeEnv V E) (cfg : PipeConfig) (m : Manifest)
    (doc : Document) (text : List Char)
    (h : (processDoc env cfg m doc text).1.err = none) :
    mLookup (processDoc env cfg m doc text).2 doc.id = some (env.hash text) := by
  by_cases hs : mLookup m doc.id = some (env.hash text)
  · rw [processDoc_skip env cfg m doc text hs]
    exact hs
  · cases hfin : (iter_chunks env.countTokens cfg.fuel text cfg.target_tokens
      cfg.overlap_tokens true).2 with
    | false =>
      rw [processDoc_chunkfuel env cfg m doc text hs hfin] at h
      simp at h
    | true =>
      cases hpr : (processBatches env cfg doc.id doc.path ⟨true, 0, [], 0⟩
        (docBatches env cfg text)).2 with
      | some e2 =>
        rw [processDoc_batches_err env cfg m doc text e2 hs hfin hpr] at h
        simp at h
      | none =>
        rw [processDoc_batches_ok env cfg m doc text hs hfin hpr]
        exact mLookup_mInsert_self m doc.id (env.hash text)

lemma build_index_manifest_mono (env : PipeEnv V E) (cfg : PipeConfig) :
    ∀ (docs : List Document) (m : Manifest) (s : RunStats) (x : List Char),
      ¬ x ∈ docs.map Document.id →
      mLookup (build_index env cfg docs m s).1 x = mLookup m x := by
  intro docs
  induction docs with
  | nil => intro m s x _; rfl
  | cons d ds ih =>
    intro m s x hx
    have hxd : ¬ x = d.id := fun h => hx (by simp [h])
    have hxds : ¬ x ∈ ds.map Document.id := fun h => hx (by simp [h])
    cases hread : d.read with
    | none => simp [build_index, hread]
    | some text =>
      rw [build_index_cons_read env cfg d ds m s text hread]
      have hman : mLookup (processDoc env cfg m d text).2 x = mLookup m x := by
        rcases processDoc_manifest env cfg m d text with hm | hm
        · rw [hm]
        · rw [hm]
          exact mLookup_mInsert_ne m d.id (env.hash text) x hxd
      cases herr : (processDoc env cfg m d text).1.err with
      | some e =>
        simp only [herr]
        exact hman
      | none =>
        simp only [herr]
        rw [ih (processDoc env cfg m d text).2 _ x hxds]
        exact hman

lemma build_index_ok_lookup (env : PipeEnv V E) (cfg : PipeConfig) :
    ∀ (docs : List Document) (m : Manifest) (s : RunStats) (m1 : Manifest) (s1 : RunStats),
      (docs.map Document.id).Nodup →
      build_index env cfg docs m s = (m1, s1, none) →
      ∀ d ∈ docs, ∃ text, d.read = some text ∧ mLookup m1 d.id = some (env.hash text) := by
  intro docs
  induction docs with
  | nil => intro m s m1 s1 _ _ d hd; simp at hd
  | cons d0 ds ih =>
    intro m s m1 s1 hnodup hrun d hd
    rw [List.map_cons] at hnodup
    have hnd := List.nodup_cons.mp hnodup
    cases hread : d0.read with
    | none => simp [build_index, hread] at hrun
    | some text =>
      rw [build_index_cons_read env cfg d0 ds m s text hread] at hrun
      cases herr : (processDoc env cfg m d0 text).1.err with
      | some e =>
        simp only [herr] at hrun
        simp at hrun
      | none =>
        simp only [herr] at hrun
        rcases List.mem_cons.mp hd with hh | ht
        · subst hh
          refine ⟨text, hread, ?_⟩
          have hmono := build_index_manifest_mono env cfg ds
            (processDoc env cfg m d text).2
            ⟨s.embedCalls + (processDoc env cfg m d text).1.embedCalls,
             s.upsertCalls + (processDoc env cfg m d text).1.upserts.length,
             s.skippedDocs + (if (processDoc env cfg m d text).1.skipped then 1 else 0)⟩
            d.id hnd.1
          rw [hrun] at hmono
          rw [hmono]
          exact processDoc_no_err_lookup env cfg m d text herr
        · exact ih (processDoc env cfg m d0 text).2 _ m1 s1 hnd.2 hrun d ht

lemma build_index_all_skip (env : PipeEnv V E) (cfg : PipeConfig) :
    ∀ (docs : List Document) (M : Manifest) (s : RunStats),
      (∀ d ∈ docs, ∃ text, d.read = some text ∧ mLookup M d.id = some (env.hash text)) →
      build_index env cfg docs M s =
        (M, ⟨s.embedCalls, s.upsertCalls, s.skippedDocs + docs.length⟩, none) := by
  intro docs
  induction docs with
  | nil => intro M s _; rfl
  | cons d ds ih =>
    intro M s hall
    obtain ⟨text, hread, hlook⟩ := hall d (by simp)
    rw [build_index_cons_read env cfg d ds M s text hread,
      processDoc_skip env cfg M d text hlook]
    simp only [List.length_nil, Nat.add_zero, if_true]
    rw [ih M _ (fun d2 hd2 => hall d2 (List.mem_cons_of_mem _ hd2))]
    have harith : s.skippedDocs + 1 + ds.length = s.skippedDocs + (d :: ds).length := by
      simp only [List.length_cons]
      omega
    rw [harith]

end IdempotenceProofs

/-- C7: running the orchestrator twice on an unchanged document set (with
distinct document ids) is idempotent: after a completed first run, every
document's content hash matches its manifest entry, and the second run
skips every document, changes nothing, and makes zero embedding calls and
zero upsert calls. -/
theorem reindex_idempotent {V E : Type} [Inhabited V] (env : PipeEnv V E)
    (cfg : PipeConfig) (docs : List Document) (m0 m1 : Manifest) (s1 : RunStats)
    (hnodup : (docs.map Document.id).Nodup)
    (hrun1 : build_index env cfg docs m0 zeroStats = (m1, s1, none)) :
    (∀ d ∈ docs, ∃ text, d.read = some text ∧ mLookup m1 d.id = some (env.hash text))
    ∧ build_index env cfg docs m1 zeroStats = (m1, ⟨0, 0, docs.length⟩, none) := by
  have hall := build_index_ok_lookup env cfg docs m0 zeroStats m1 s1 hnodup hrun1
  refine ⟨hall, ?_⟩
  have h2 := build_index_all_skip env cfg docs m1 zeroStats hall
  simpa [zeroStats] using h2

/-- Witness for `reindex_idempotent` at a concrete input. -/
theorem reindex_idempotent_witness :
    (∃ text, doc0.read = some text ∧
      mLookup [("d".toList, "hello".toList)] doc0.id = some (envOK.hash text))
    ∧ build_index envOK cfg0 [doc0] [("d".toList, "hello".toList)] zeroStats =
        ([("d".toList, "hello".toList)], ⟨0, 0, 1⟩, none) := by
  have h := reindex_idempotent envOK cfg0 [doc0] [] [("d".toList, "hello".toList)]
    ⟨1, 1, 0⟩ (by decide) (by decide)
  exact ⟨h.1 doc0 (by decide), h.2⟩

end LegalRag
